import Mathlib

/-!
Verification development for the e-commerce chatbot core
(source: src/code_1.py).

Strings are modelled as lists of characters (ASCII semantics for case
folding and character classes, as sanctioned by spec section 4.1: "No
locale handling beyond ASCII case folding is required").  Python floats
that only ever hold small exact rationals (similarity ratios, prices)
are modelled as Rat; the comparison thresholds 0.8 and 0.3 are exactly
decided at rationals whose distance from representable values far
exceeds double rounding error, so the rational model agrees with the
float code on every reachable comparison.
-/

namespace Chatbot

/-- Character-list model of Python strings. -/
abbrev Str := List Char

/-- Converts a Lean string literal to the character-list model. -/
def str (s : String) : Str := s.toList

/-- Python str.lower, ASCII model (Char.toLower maps only A-Z). -/
def lowerL (s : Str) : Str := s.map Char.toLower

/-- Python str.strip: drop whitespace from both ends. -/
def trim (s : Str) : Str :=
  (((s.dropWhile Char.isWhitespace).reverse).dropWhile Char.isWhitespace).reverse

/-- beginsWith t l: t occurs at the start of l. -/
def beginsWith : Str → Str → Bool
  | [], _ => true
  | _ :: _, [] => false
  | a :: t, b :: l => a = b && beginsWith t l

/-- Python substring containment (the "in" operator on strings). -/
def containsSub : Str → Str → Bool
  | t, [] => beginsWith t []
  | t, b :: l => beginsWith t (b :: l) || containsSub t l

/-- Regex word character, ASCII model of backslash-w. -/
def isWordChar (c : Char) : Bool := c.isAlphanum || c = '_'

/-- Word occurrence of w at index i of l with regex word boundaries on
both sides (model of a backslash-b delimited search hit). -/
def hasWordAt (w l : Str) (i : Nat) : Bool :=
  beginsWith w (l.drop i) &&
  (i = 0 || !isWordChar (l.getD (i - 1) ' ')) &&
  (match l.drop (i + w.length) with
   | [] => true
   | c :: _ => !isWordChar c)

/-- re.search of a word-bounded literal: some boundary-delimited
occurrence of w in l. -/
def hasWord (w l : Str) : Bool :=
  (List.range (l.length + 1)).any fun i => hasWordAt w l i

/-- Run-collapsing step of normalize_text: the regex
(.)backref{2,} -> backref backref rewrites every maximal run of more
than two equal adjacent characters to exactly two. -/
def collapse : List Char → List Char
  | a :: b :: c :: rest =>
    if a = b ∧ b = c then collapse (b :: c :: rest)
    else a :: collapse (b :: c :: rest)
  | l => l

/-- normalize_text from the source: lowercase, strip every character
that is not alphanumeric (regex [ \W_]+ under the ASCII model), then
collapse runs longer than two to exactly two. -/
def normalize_text (s : Str) : Str :=
  collapse ((lowerL s).filter Char.isAlphanum)

/-- Value of a digit string (helper for int()). -/
def digitsVal (s : Str) : Nat :=
  s.foldl (fun n c => n * 10 + (c.toNat - '0'.toNat)) 0

/-- Nonempty all-digit string to Nat. -/
def parseDigits (s : Str) : Option Nat :=
  if s ≠ [] ∧ s.all Char.isDigit then some (digitsVal s) else none

/-- Python int(str) on decimal literals: optional surrounding
whitespace, optional sign, nonempty digits (underscore digit grouping
is not modelled). -/
def parseInt (s : Str) : Option Int :=
  match trim s with
  | '-' :: ds => (parseDigits ds).map fun n => -(n : Int)
  | '+' :: ds => (parseDigits ds).map fun n => (n : Int)
  | ds => (parseDigits ds).map fun n => (n : Int)

/-!
Ratcliff/Obershelp sequence matching, as used by the source through
difflib.SequenceMatcher(None, a, b).ratio().  The strings compared in
the source are far below the 200-character threshold of difflib's
autojunk heuristic, so the pure algorithm is the faithful model (spec
section 4.4 describes exactly the junk-free greedy recursion).
-/

/-- Length of the common run starting at the heads of both lists. -/
def runLen : List Char → List Char → Nat
  | a :: as, b :: bs => if a = b then runLen as bs + 1 else 0
  | _, _ => 0

/-- Fold step selecting the first candidate (in traversal order) whose
match length strictly exceeds the best so far. -/
def pickBest (best c : Nat × Nat × Nat) : Nat × Nat × Nat :=
  if best.2.2 < c.2.2 then c else best

/-- All candidate blocks (i, j, length of the match starting there). -/
def fimCands (a b : List Char) : List (Nat × Nat × Nat) :=
  (List.range a.length).flatMap fun i =>
    (List.range b.length).map fun j => (i, j, runLen (a.drop i) (b.drop j))

/-- difflib find_longest_match without junk: the longest matching
block, ties resolved to the earliest start in a then the earliest
start in b (candidates are scanned in lexicographic (i, j) order and
replaced only on strictly longer matches, which realises exactly the
documented tie-break). -/
def fim (a b : List Char) : Nat × Nat × Nat :=
  (fimCands a b).foldl pickBest (0, 0, 0)

/-- Total size of difflib get_matching_blocks: recursive split around
the longest match.  fuel bounds the recursion depth; any fuel at least
the sum of lengths is enough since every recursive call strictly
shrinks that sum. -/
def matchingTotalF : Nat → List Char → List Char → Nat
  | 0, _, _ => 0
  | fuel + 1, a, b =>
    let t := fim a b
    if t.2.2 = 0 then 0
    else
      matchingTotalF fuel (a.take t.1) (b.take t.2.1) + t.2.2 +
        matchingTotalF fuel (a.drop (t.1 + t.2.2)) (b.drop (t.2.1 + t.2.2))

/-- M in the ratio 2M/T: total length of the matching blocks. -/
def matchingTotal (a b : List Char) : Nat :=
  matchingTotalF (a.length + b.length) a b

/-- difflib SequenceMatcher ratio: 2M/T, and 1 when both strings are
empty (difflib returns 1.0 when the combined length is 0). -/
def seqRatio (a b : List Char) : Rat :=
  if a.length + b.length = 0 then 1
  else (2 * matchingTotal a b : Nat) / ((a.length + b.length : Nat) : Rat)

/-! Intent classification (determine_intent in the source). -/

/-- The fixed intent enumeration returned by determine_intent. -/
inductive Intent
  | place_order
  | cancel_order
  | order_status
  | inquire_product
  | list_products
  | general
  | add_to_cart
  | search_product
  deriving DecidableEq

/-- Regex alternation of the word-bounded verbs order/buy/purchase. -/
def orderBuyPurchase (l : Str) : Bool :=
  hasWord (str "order") l || hasWord (str "buy") l || hasWord (str "purchase") l

/-- Regex alternation of the word-bounded verbs find/available/search. -/
def findAvailableSearch (l : Str) : Bool :=
  hasWord (str "find") l || hasWord (str "available") l || hasWord (str "search") l

/-- The interrogative openers of the general-intent rule. -/
def interrogatives : List Str :=
  [str "how", str "what", str "where", str "when", str "why", str "which"]

/-- re.match of the anchored interrogative rule on the stripped,
case-folded utterance: an interrogative word at the start followed by
a word boundary. -/
def startsWithInterrog (s : Str) : Bool :=
  let t := lowerL (trim s)
  interrogatives.any fun w =>
    beginsWith w t &&
    (match t.drop w.length with
     | [] => true
     | c :: _ => !isWordChar c)

/-- determine_intent from the source: an ordered if/elif chain, first
match wins.  The 0.8 float threshold is the exact rational 4/5 (see
the file header note on float thresholds). -/
def determine_intent (s : Str) : Intent :=
  let lower := lowerL s
  if containsSub (str "suggest") lower then .place_order
  else if (4 : Rat) / 5 ≤ seqRatio (normalize_text s) (normalize_text (str "order")) then
    .place_order
  else if containsSub (str "cancel order") lower || containsSub (str "cancel my order") lower then
    .cancel_order
  else if containsSub (str "status") lower then .order_status
  else if containsSub (str "do you have") lower ||
      (containsSub (str "i want") lower && !orderBuyPurchase lower) then
    .inquire_product
  else if containsSub (str "show me your products") lower ||
      containsSub (str "list your products") lower ||
      (containsSub (str "products") lower &&
        (containsSub (str "show") lower || containsSub (str "list") lower)) then
    .list_products
  else if startsWithInterrog s then .general
  else if containsSub (str "add it to the cart") lower then .add_to_cart
  else if orderBuyPurchase lower then .place_order
  else if findAvailableSearch lower then .search_product
  else .general

/-! Products, orders and the storage-backed search operations.  The
storage collaborator is modelled as a list of rows in the
deterministic storage-iteration order (spec section 4.3), so SQL
fetchone becomes List.find? and fetchall becomes a filter. -/

/-- A catalog product row.  quantity is a non-negative stock count
(spec section 3 invariant). -/
structure ProductR where
  id : Nat
  name : Str
  category : Str
  color : Str
  material : Str
  style : Str
  size : Str
  price : Rat
  quantity : Nat
  deriving DecidableEq

/-- The fields of an orders row read or written by cancel_order. -/
structure OrderRec where
  id : Nat
  status : Str
  deriving DecidableEq

/-- Result of the two product-search functions. -/
inductive SearchRes
  | found (p : ProductR)
  | soldOut
  | notFound
  deriving DecidableEq

/-- Case-insensitive string equality (MySQL ci collation and the
explicit LOWER() comparisons in the source queries). -/
def lowEq (a b : Str) : Bool := lowerL a = lowerL b

/-- The LIKE lookup of search_product: first product whose lowercased
name has the lowercased query as a substring (SQL wildcard characters
inside the query are not modelled; the spec specifies substring
match). -/
def likeFind (catalog : List ProductR) (q : Str) : Option ProductR :=
  catalog.find? fun p => containsSub (lowerL q) (lowerL p.name)

/-- The fallback loop of search_product, translated statement by
statement: scan the catalog; on a normalized-containment hit return
the product only if its stock is positive, otherwise keep scanning. -/
def fallbackScan (normQ : Str) : List ProductR → SearchRes
  | [] => .notFound
  | p :: rest =>
    if containsSub normQ (normalize_text p.name) then
      if 0 < p.quantity then .found p else fallbackScan normQ rest
    else fallbackScan normQ rest

/-- search_product from the source: LIKE lookup first (quantity 0 on a
hit means sold out), then the canonicalized fallback scan. -/
def search_product (catalog : List ProductR) (q : Str) : SearchRes :=
  match likeFind catalog q with
  | some p => if p.quantity = 0 then .soldOut else .found p
  | none => fallbackScan (normalize_text q) catalog

/-- Scoring of a fallback candidate in search_product_by_attributes:
one point per mismatching color, one per mismatching size. -/
def attrScore (col sz : Str) (p : ProductR) : Nat :=
  (if lowEq p.color col then 0 else 1) + (if lowEq p.size sz then 0 else 1)

/-- Stable insertion of x after all elements with a strictly smaller
or equal key. -/
def insertByKey (key : α → Nat) (x : α) : List α → List α
  | [] => [x]
  | y :: ys => if key x ≤ key y then x :: y :: ys else y :: insertByKey key x ys

/-- Stable sort by key.  Python's list.sort(key=...) is specified to
be stable, and a stable sort by key has a unique result, realised here
by stable insertion sort. -/
def sortByKey (key : α → Nat) : List α → List α
  | [] => []
  | x :: xs => insertByKey key x (sortByKey key xs)

/-- The exact-match query of search_product_by_attributes: all four
attributes equal case-insensitively. -/
def exactFind (catalog : List ProductR) (cat col sz st : Str) : Option ProductR :=
  catalog.find? fun p =>
    lowEq p.category cat && lowEq p.color col && lowEq p.size sz && lowEq p.style st

/-- The fallback candidate list: category and style match, positive
stock, in storage order. -/
def fallbackCands (catalog : List ProductR) (cat st : Str) : List ProductR :=
  (catalog.filter fun p => lowEq p.category cat && lowEq p.style st).filter
    fun p => 0 < p.quantity

/-- search_product_by_attributes from the source: exact match (sold
out on zero stock), else score the category+style candidates, stable
sort by score and take the first. -/
def search_product_by_attributes (catalog : List ProductR) (cat col sz st : Str) : SearchRes :=
  match exactFind catalog cat col sz st with
  | some p => if p.quantity = 0 then .soldOut else .found p
  | none =>
    match (sortByKey (attrScore col sz) (fallbackCands catalog cat st)).head? with
    | none => .notFound
    | some best => .found best

/-- Message outcomes of cancel_order. -/
inductive CancelMsg
  | notFound
  | onDelivery
  | cancelled
  deriving DecidableEq

/-- cancel_order from the source: look the order up by id; missing
order or an On Delivery status (compared lowercased) leaves the table
untouched; otherwise the status of that order id is updated to
Cancelled. -/
def cancel_order (db : List OrderRec) (oid : Nat) : CancelMsg × List OrderRec :=
  match db.find? (fun o => o.id == oid) with
  | none => (.notFound, db)
  | some o =>
    if lowerL o.status = str "on delivery" then (.onDelivery, db)
    else
      (.cancelled,
        db.map fun o2 => if o2.id == oid then { o2 with status := str "Cancelled" } else o2)

/-! The order-placement dialogue (the chat function), modelled as
functions over the list of pending user inputs of the session.  Each
loop consumes inputs until it is satisfied; a script that runs dry
yields the outOfInput outcome (the real REPL blocks instead). -/

/-- SYNONYMS_YES from the source. -/
def SYNONYMS_YES : List Str :=
  [str "yes", str "y", str "ok", str "okay", str "sure", str "choose it",
   str "chooseit", str "yeah", str "yep", str "accept"]

/-- SYNONYMS_NO from the source. -/
def SYNONYMS_NO : List Str :=
  [str "no", str "n", str "nah", str "nope", str "cancel"]

/-- Result of handle_single_option: the confirmed option, a
cancellation, or an invalid entry to be re-prompted. -/
inductive HSOResult
  | chosen (v : Str)
  | cancelOrd
  | invalid
  deriving DecidableEq

/-- handle_single_option from the source: with exactly one option, an
affirmative synonym picks it, a negative synonym cancels, anything
else is invalid (the caller re-prompts on invalid). -/
def handle_single_option (options : List Str) (user_input : Str) : HSOResult :=
  if options.length = 1 then
    let lowered := trim (lowerL user_input)
    if lowered ∈ SYNONYMS_YES then .chosen (options.headD [])
    else if lowered ∈ SYNONYMS_NO then .cancelOrd
    else .invalid
  else .invalid

/-- The email regex of get_email_input: one at-sign with nonempty text
before it and, after it, a dot with nonempty at-sign-free text on both
sides. -/
def emailOk (s : Str) : Bool :=
  match s.splitOn '@' with
  | [a, b] => !a.isEmpty && ((b.drop 1).dropLast).contains '.'
  | _ => false

/-- The phone check of get_phone_input: nonempty, exactly 13
characters, leading plus sign. -/
def phoneOk (s : Str) : Bool :=
  !s.isEmpty && s.length == 13 && beginsWith (str "+") s

/-- get_email_input: re-prompt until the trimmed entry matches. -/
def emailLoop : List Str → Option (Str × List Str)
  | [] => none
  | inp :: rest =>
    let e := trim inp
    if emailOk e then some (e, rest) else emailLoop rest

/-- get_phone_input: re-prompt until the trimmed entry is valid. -/
def phoneLoop : List Str → Option (Str × List Str)
  | [] => none
  | inp :: rest =>
    let p := trim inp
    if phoneOk p then some (p, rest) else phoneLoop rest

/-- The accepted payment methods of the CollectPayment step. -/
def paymentMethods : List Str := [str "visa", str "mastercard", str "cash"]

/-- The payment step: re-prompt while the stripped lowercased method
is not accepted; cash stores the literal string cash, a card method
stores the next entry (the free-text card details) as payment info. -/
def paymentPhase : List Str → Option (Str × List Str)
  | [] => none
  | inp :: rest =>
    let m := lowerL (trim inp)
    if m ∈ paymentMethods then
      if m = str "cash" then some (str "cash", rest)
      else
        match rest with
        | [] => none
        | card :: rest2 => some (card, rest2)
    else paymentPhase rest

/-- The order dict built at the end of both checkout flows. -/
structure OrderDetails where
  product_id : Nat
  product_name : Str
  color : Str
  material : Str
  style : Str
  size : Str
  price : Rat
  quantity : Int
  shipping_address : Str
  customer_name : Str
  email : Str
  phone : Str
  payment_info : Str
  deriving DecidableEq

/-- Terminal outcome of a checkout script. -/
inductive Outcome
  | placed (od : OrderDetails)
  | cancelled
  | outOfInput
  deriving DecidableEq

/-- Whether an outcome is a placed order. -/
def isPlaced : Outcome → Bool
  | .placed _ => true
  | _ => false

/-- The quantity loop of the place_order flow: non-numeric input or a
quantity above the available stock re-prompts; any other parsed
integer exits the loop. -/
def quantityLoopPO (stock : Nat) : List Str → Option (Int × List Str)
  | [] => none
  | inp :: rest =>
    match parseInt inp with
    | none => quantityLoopPO stock rest
    | some q => if (stock : Int) < q then quantityLoopPO stock rest else some (q, rest)

/-- Result of the single-shot quantity step of the inquire_product
flow. -/
inductive InquireQty
  | cancelled
  | toPrice (q : Int) (rest : List Str)
  | outOfInput
  deriving DecidableEq

/-- The quantity step of the inquire_product flow: a non-numeric entry
prints Invalid number, Order cancelled; a quantity above stock prints
Order cancelled; otherwise the flow continues to the price
confirmation. -/
def inquireQuantityStep (stock : Nat) : List Str → InquireQty
  | [] => .outOfInput
  | inp :: rest =>
    match parseInt inp with
    | none => .cancelled
    | some q => if (stock : Int) < q then .cancelled else .toPrice q rest

/-- The customer-details and submission tail shared by both flows:
raw name and address, validated email and phone, payment phase, then
the order dict (status Processing is added by place_order itself). -/
def collectAfterPrice (p : ProductR) (q : Int) : List Str → Outcome
  | [] => .outOfInput
  | nameInp :: rest =>
    match rest with
    | [] => .outOfInput
    | addr :: rest2 =>
      match emailLoop rest2 with
      | none => .outOfInput
      | some (em, rest3) =>
        match phoneLoop rest3 with
        | none => .outOfInput
        | some (ph, rest4) =>
          match paymentPhase rest4 with
          | none => .outOfInput
          | some (pi, _) =>
            .placed
              { product_id := p.id, product_name := p.name, color := p.color,
                material := p.material, style := p.style, size := p.size,
                price := p.price, quantity := q,
                shipping_address := addr, customer_name := nameInp,
                email := em, phone := ph, payment_info := pi }

/-- The place_order flow from the quantity loop on: quantity loop,
price confirmation (anything outside SYNONYMS_YES cancels), then the
shared collection tail. -/
def checkoutPO (p : ProductR) (inputs : List Str) : Outcome :=
  match quantityLoopPO p.quantity inputs with
  | none => .outOfInput
  | some (q, rest) =>
    match rest with
    | [] => .outOfInput
    | confirm :: rest2 =>
      if lowerL (trim confirm) ∈ SYNONYMS_YES then collectAfterPrice p q rest2
      else .cancelled

/-- The inquire_product flow from its quantity step on (the single
quantity prompt that cancels on invalid input), then the same price
confirmation and collection tail. -/
def inquireCheckout (p : ProductR) (inputs : List Str) : Outcome :=
  match inquireQuantityStep p.quantity inputs with
  | .outOfInput => .outOfInput
  | .cancelled => .cancelled
  | .toPrice q rest =>
    match rest with
    | [] => .outOfInput
    | confirm :: rest2 =>
      if lowerL (trim confirm) ∈ SYNONYMS_YES then collectAfterPrice p q rest2
      else .cancelled

/-- The affirmative set exactly as the spec enumerates it
(yes/y/ok/okay/sure/choose it/yeah/yep/accept).  Modelled from the
spec wording to compare against SYNONYMS_YES from the source. -/
def claimAffirmativeSet : List Str :=
  [str "yes", str "y", str "ok", str "okay", str "sure", str "choose it",
   str "yeah", str "yep", str "accept"]

/-- A concrete in-stock product used by witnesses and
counterexamples. -/
def P0 : ProductR :=
  { id := 7, name := str "Black Hoodie", category := str "Hoodies",
    color := str "Black", material := str "Cotton", style := str "Pullover",
    size := str "M", price := 25, quantity := 5 }

/-- No two adjacent characters of the list are equal (used to reason
about what the run-collapsing step can delete). -/
def noAdjEq : List Char → Bool
  | a :: b :: t => decide (a ≠ b) && noAdjEq (b :: t)
  | _ => true

/-- Witness catalog for the attribute matcher: three Hoodies in the
Pullover style; against the query (Black, M) their scores are 1, 1, 2
and no product matches the query exactly. -/
def PA : ProductR :=
  { id := 1, name := str "Red Hoodie M", category := str "Hoodies",
    color := str "Red", material := str "Cotton", style := str "Pullover",
    size := str "M", price := 20, quantity := 2 }

/-- Second witness product: Blue, size M. -/
def PB : ProductR :=
  { id := 2, name := str "Blue Hoodie M", category := str "Hoodies",
    color := str "Blue", material := str "Cotton", style := str "Pullover",
    size := str "M", price := 21, quantity := 4 }

/-- Third witness product: Red, size L. -/
def PD : ProductR :=
  { id := 3, name := str "Red Hoodie L", category := str "Hoodies",
    color := str "Red", material := str "Cotton", style := str "Pullover",
    size := str "L", price := 22, quantity := 1 }

/-- The witness catalog in storage order. -/
def CAT4 : List ProductR := [PA, PB, PD]

/-- A concrete orders table used by witnesses: one order in
Processing, one On Delivery. -/
def DB0 : List OrderRec :=
  [{ id := 1, status := str "Processing" }, { id := 2, status := str "On Delivery" }]

/-! Helper lemmas about characters and the run-collapsing step. -/

theorem charToNat_ofNat (n : Nat) (h : n.isValidChar) : (Char.ofNat n).toNat = n := by
  simp only [Char.ofNat, h, dif_pos]
  rfl

theorem toNat_toLower (c : Char) :
    c.toLower.toNat = if c.toNat ≥ 65 ∧ c.toNat ≤ 90 then c.toNat + 32 else c.toNat := by
  simp only [Char.toLower]
  split
  · next h =>
    have hv : (c.toNat + 32).isValidChar := by left; omega
    rw [charToNat_ofNat _ hv]
  · rfl

theorem toLower_fix (d : Char) (h : ¬(d.toNat ≥ 65 ∧ d.toNat ≤ 90)) : d.toLower = d := by
  simp only [Char.toLower]
  exact if_neg h

theorem toLower_toLower (c : Char) : c.toLower.toLower = c.toLower := by
  apply toLower_fix
  rw [toNat_toLower c]
  split <;> omega

theorem mem_collapse : ∀ (l : List Char) (c : Char), c ∈ collapse l → c ∈ l
  | [], _, h => h
  | [_], _, h => h
  | [_, _], _, h => h
  | a :: b :: d :: rest, c, h => by
    rw [collapse] at h
    split at h
    · exact List.mem_cons_of_mem _ (mem_collapse (b :: d :: rest) c h)
    · rcases List.mem_cons.mp h with h1 | h2
      · exact h1 ▸ List.mem_cons_self _ _
      · exact List.mem_cons_of_mem _ (mem_collapse (b :: d :: rest) c h2)

theorem collapse_cons_of_ne (b c : Char) (r : List Char) (h : b ≠ c) :
    collapse (b :: c :: r) = b :: collapse (c :: r) := by
  cases r with
  | nil => rfl
  | cons d r2 =>
    rw [collapse]
    rw [if_neg (by rintro ⟨h1, _⟩; exact h h1)]

theorem head_collapse : ∀ (a : Char) (l : List Char), ∃ t, collapse (a :: l) = a :: t
  | _, [] => ⟨[], rfl⟩
  | _, [b] => ⟨[b], rfl⟩
  | a, b :: c :: r => by
    rw [collapse]
    split
    · next h =>
      obtain ⟨t, ht⟩ := head_collapse b (c :: r)
      exact ⟨t, by rw [ht, h.1]⟩
    · exact ⟨collapse (b :: c :: r), rfl⟩

theorem collapse_collapse : ∀ l : List Char, collapse (collapse l) = collapse l
  | [] => rfl
  | [_] => rfl
  | [_, _] => rfl
  | a :: b :: c :: r => by
    have ih := collapse_collapse (b :: c :: r)
    rw [collapse]
    split
    · exact ih
    · next hkeep =>
      by_cases hab : a = b
      · have hbc : b ≠ c := fun hbc => hkeep ⟨hab, hbc⟩
        have h1 : collapse (b :: c :: r) = b :: collapse (c :: r) :=
          collapse_cons_of_ne b c r hbc
        obtain ⟨t2, ht2⟩ := head_collapse c r
        rw [h1, ht2]
        rw [collapse, if_neg hkeep]
        rw [← ht2, ← h1, ih, h1, ht2]
      · obtain ⟨t, ht⟩ := head_collapse b (c :: r)
        rw [ht, collapse_cons_of_ne a b t hab, ← ht, ih]

/-- Characters surviving normalize_text are already lowercase. -/
theorem lower_fix_of_mem_normalize (s : Str) (c : Char) (h : c ∈ normalize_text s) :
    c.toLower = c := by
  have h1 : c ∈ (lowerL s).filter Char.isAlphanum := mem_collapse _ c h
  have h2 : c ∈ lowerL s := List.mem_of_mem_filter h1
  obtain ⟨d, _, rfl⟩ := List.mem_map.mp h2
  exact toLower_toLower d

/-- Characters surviving normalize_text are alphanumeric. -/
theorem alnum_of_mem_normalize (s : Str) (c : Char) (h : c ∈ normalize_text s) :
    c.isAlphanum = true :=
  List.of_mem_filter (mem_collapse _ c h)

/-- C8: normalize is idempotent — for every input string (including
the empty string), normalizing twice equals normalizing once, where
normalize lowercases, strips non-alphanumeric characters, and
collapses runs of more than two identical characters to exactly
two. -/
theorem c8_normalize_idempotent (s : Str) :
    normalize_text (normalize_text s) = normalize_text s := by
  have hmap : lowerL (normalize_text s) = normalize_text s := by
    unfold lowerL
    rw [List.map_congr_left fun c hc => lower_fix_of_mem_normalize s c hc]
    exact List.map_id _
  have hfilter : (normalize_text s).filter Char.isAlphanum = normalize_text s :=
    List.filter_eq_self.mpr fun c hc => alnum_of_mem_normalize s c hc
  show collapse ((lowerL (normalize_text s)).filter Char.isAlphanum) = normalize_text s
  rw [hmap, hfilter]
  exact collapse_collapse _

/-! Claims C1 and C2: the quantity step of the two checkout flows. -/

theorem quantityLoopPO_le :
    ∀ (stock : Nat) (inputs : List Str) (q : Int) (rest : List Str),
      quantityLoopPO stock inputs = some (q, rest) → q ≤ (stock : Int)
  | _, [], _, _, h => by simp [quantityLoopPO] at h
  | stock, inp :: rest2, q, rest, h => by
    rw [quantityLoopPO] at h
    cases hp : parseInt inp with
    | none =>
      rw [hp] at h
      exact quantityLoopPO_le stock rest2 q rest h
    | some q2 =>
      rw [hp] at h
      dsimp only at h
      by_cases hlt : (stock : Int) < q2
      · rw [if_pos hlt] at h
        exact quantityLoopPO_le stock rest2 q rest h
      · rw [if_neg hlt] at h
        rw [Option.some.injEq, Prod.mk.injEq] at h
        obtain ⟨rfl, -⟩ := h
        omega

/-- C1 counterexample: the claim requires a quantity of at least 1 to
reach the price confirmation, but quantity 0 passes the stock guard
(only an upper bound is checked), reaches the confirmation, and an
order of zero units is even placed. -/
theorem c1_counterexample :
    quantityLoopPO 5 [str "0"] = some (0, []) ∧ ¬ ((1 : Int) ≤ 0) ∧
      isPlaced (checkoutPO P0
        [str "0", str "yes", str "Jo", str "Addr", str "a@b.c",
         str "+201111111111", str "cash"]) = true := by
  refine ⟨by decide, by decide, by decide⟩

/-- C1 amended: in both flows the price confirmation is reached only
with a parsed integer quantity at most the resolved product's stock;
the code enforces no lower bound (q of 0 or below is accepted). -/
theorem c1_quantity_le_stock :
    (∀ (stock : Nat) (inputs : List Str) (q : Int) (rest : List Str),
        quantityLoopPO stock inputs = some (q, rest) → q ≤ (stock : Int)) ∧
    (∀ (stock : Nat) (inputs : List Str) (q : Int) (rest : List Str),
        inquireQuantityStep stock inputs = .toPrice q rest → q ≤ (stock : Int)) := by
  constructor
  · exact quantityLoopPO_le
  · intro stock inputs q rest h
    match inputs with
    | [] => simp [inquireQuantityStep] at h
    | inp :: rest2 =>
      rw [inquireQuantityStep] at h
      cases hp : parseInt inp with
      | none => rw [hp] at h; exact absurd h (by simp)
      | some q2 =>
        rw [hp] at h
        dsimp only at h
        by_cases hlt : (stock : Int) < q2
        · rw [if_pos hlt] at h
          exact absurd h (by simp)
        · rw [if_neg hlt] at h
          injection h with h1 h2
          omega

/-- C1 witness: a valid quantity of 3 against stock 5 exits the loop
and is indeed bounded by the stock. -/
theorem c1_witness :
    quantityLoopPO 5 [str "3"] = some (3, []) ∧ (3 : Int) ≤ (5 : Nat) :=
  ⟨by decide, c1_quantity_le_stock.1 5 [str "3"] 3 [] (by decide)⟩

/-- C2 counterexample: at the quantity step of the inquire_product
flow a non-numeric entry (and likewise an over-stock quantity) cancels
the order flow instead of re-prompting. -/
theorem c2_counterexample :
    parseInt (str "abc") = none ∧
      inquireQuantityStep 5 [str "abc"] = InquireQty.cancelled ∧
      inquireQuantityStep 5 [str "9"] = InquireQty.cancelled := by
  refine ⟨by decide, by decide, by decide⟩

/-- C2 amended: in the place_order flow the quantity loop re-prompts
(consumes the invalid entry and continues unchanged) on non-numeric
input and on quantities above stock; in the inquire_product flow the
same invalid entries cancel the flow. -/
theorem c2_quantity_error_handling :
    (∀ (stock : Nat) (inp : Str) (rest : List Str),
        parseInt inp = none →
        quantityLoopPO stock (inp :: rest) = quantityLoopPO stock rest) ∧
    (∀ (stock : Nat) (inp : Str) (rest : List Str) (q : Int),
        parseInt inp = some q → (stock : Int) < q →
        quantityLoopPO stock (inp :: rest) = quantityLoopPO stock rest) ∧
    (∀ (stock : Nat) (inp : Str) (rest : List Str),
        parseInt inp = none →
        inquireQuantityStep stock (inp :: rest) = .cancelled) ∧
    (∀ (stock : Nat) (inp : Str) (rest : List Str) (q : Int),
        parseInt inp = some q → (stock : Int) < q →
        inquireQuantityStep stock (inp :: rest) = .cancelled) := by
  refine ⟨?_, ?_, ?_, ?_⟩
  · intro stock inp rest h
    rw [quantityLoopPO, h]
  · intro stock inp rest q h hq
    rw [quantityLoopPO, h]
    simp [hq]
  · intro stock inp rest h
    rw [inquireQuantityStep, h]
  · intro stock inp rest q h hq
    rw [inquireQuantityStep, h]
    simp [hq]

/-- C2 witness: a concrete non-numeric entry is consumed by the
place_order quantity loop and the loop simply continues. -/
theorem c2_witness :
    parseInt (str "abc") = none ∧
      quantityLoopPO 5 [str "abc", str "2"] = quantityLoopPO 5 [str "2"] :=
  ⟨by decide, c2_quantity_error_handling.1 5 (str "abc") [str "2"] (by decide)⟩

/-! Claim C6: the price-confirmation asymmetry. -/

/-- C6 counterexample: the source set SYNONYMS_YES additionally
contains the one-word form chooseit, which is outside the affirmative
set enumerated by the claim; with it the flow does not cancel — it
proceeds and places the order. -/
theorem c6_counterexample :
    lowerL (trim (str "chooseit")) ∉ claimAffirmativeSet ∧
      isPlaced (checkoutPO P0
        [str "1", str "chooseit", str "Jo", str "Addr", str "a@b.c",
         str "+201111111111", str "cash"]) = true := by
  refine ⟨by decide, by decide⟩

/-- C6 amended: at the price confirmation of either flow, every
response whose trimmed lowercased form is outside SYNONYMS_YES (the
source set, which also contains chooseit) cancels the flow and no
order is created; at a single-option attribute state a response
outside both synonym sets is merely invalid (re-prompted), so only an
explicit negative cancels there. -/
theorem c6_price_confirmation_cancels :
    (∀ (p : ProductR) (inputs : List Str) (q : Int) (confirm : Str) (rest2 : List Str),
        quantityLoopPO p.quantity inputs = some (q, confirm :: rest2) →
        lowerL (trim confirm) ∉ SYNONYMS_YES →
        checkoutPO p inputs = .cancelled) ∧
    (∀ (p : ProductR) (inputs : List Str) (q : Int) (confirm : Str) (rest2 : List Str),
        inquireQuantityStep p.quantity inputs = .toPrice q (confirm :: rest2) →
        lowerL (trim confirm) ∉ SYNONYMS_YES →
        inquireCheckout p inputs = .cancelled) ∧
    (∀ (opt inp : Str),
        trim (lowerL inp) ∉ SYNONYMS_YES → trim (lowerL inp) ∉ SYNONYMS_NO →
        handle_single_option [opt] inp = .invalid) := by
  refine ⟨?_, ?_, ?_⟩
  · intro p inputs q confirm rest2 hq hno
    unfold checkoutPO
    rw [hq]
    simp [hno]
  · intro p inputs q confirm rest2 hq hno
    unfold inquireCheckout
    rw [hq]
    simp [hno]
  · intro opt inp h1 h2
    simp [handle_single_option, h1, h2]

/-- C6 witness: a concrete non-affirmative answer at the price prompt
cancels the place_order flow. -/
theorem c6_witness :
    checkoutPO P0 [str "2", str "maybe"] = Outcome.cancelled :=
  c6_price_confirmation_cancels.1 P0 [str "2", str "maybe"] 2 (str "maybe") []
    (by decide) (by decide)

/-! Claim C10: the payment step. -/

theorem paymentPhase_src :
    ∀ (inputs : List Str) (pi : Str) (rest : List Str),
      paymentPhase inputs = some (pi, rest) →
      pi = str "cash" ∨
        ∃ (k : Nat) (m : Str), inputs.drop k = m :: pi :: rest ∧
          (lowerL (trim m) = str "visa" ∨ lowerL (trim m) = str "mastercard")
  | [], pi, rest, h => by simp [paymentPhase] at h
  | inp :: rest2, pi, rest, h => by
    rw [paymentPhase.eq_def] at h
    dsimp only at h
    by_cases hm : lowerL (trim inp) ∈ paymentMethods
    · rw [if_pos hm] at h
      by_cases hc : lowerL (trim inp) = str "cash"
      · rw [if_pos hc] at h
        rw [Option.some.injEq, Prod.mk.injEq] at h
        exact Or.inl h.1.symm
      · rw [if_neg hc] at h
        match rest2, h with
        | card :: rest3, h =>
          rw [Option.some.injEq, Prod.mk.injEq] at h
          obtain ⟨rfl, rfl⟩ := h
          refine Or.inr ⟨0, inp, rfl, ?_⟩
          simp only [paymentMethods, List.mem_cons, List.mem_singleton] at hm
          rcases hm with h | h | h
          · exact Or.inl h
          · exact Or.inr h
          · exact absurd h (by simpa using hc)
    · rw [if_neg hm] at h
      rcases paymentPhase_src rest2 pi rest h with h1 | ⟨k, m, hk, hmeth⟩
      · exact Or.inl h1
      · exact Or.inr ⟨k + 1, m, by simpa using hk, hmeth⟩

/-- C10: the payment step accepts exactly the methods visa,
mastercard, cash (case-insensitively, trimmed) and re-prompts on
anything else; cash stores the literal string cash; a card method
stores the next free-text entry; hence a successful payment phase
yields either the literal cash or the entry following an accepted card
method. -/
theorem c10_payment_step :
    (∀ (inp : Str) (rest : List Str),
        lowerL (trim inp) ∉ paymentMethods →
        paymentPhase (inp :: rest) = paymentPhase rest) ∧
    (∀ (inp : Str) (rest : List Str),
        lowerL (trim inp) = str "cash" →
        paymentPhase (inp :: rest) = some (str "cash", rest)) ∧
    (∀ (inp card : Str) (rest : List Str),
        lowerL (trim inp) = str "visa" ∨ lowerL (trim inp) = str "mastercard" →
        paymentPhase (inp :: card :: rest) = some (card, rest)) ∧
    (∀ (inputs : List Str) (pi : Str) (rest : List Str),
        paymentPhase inputs = some (pi, rest) →
        pi = str "cash" ∨
          ∃ (k : Nat) (m : Str), inputs.drop k = m :: pi :: rest ∧
            (lowerL (trim m) = str "visa" ∨ lowerL (trim m) = str "mastercard")) := by
  refine ⟨?_, ?_, ?_, paymentPhase_src⟩
  · intro inp rest h
    conv_lhs => rw [paymentPhase.eq_def]
    simp only []
    rw [if_neg h]
  · intro inp rest h
    conv_lhs => rw [paymentPhase.eq_def]
    simp only []
    rw [if_pos (by rw [h]; decide), if_pos h]
  · intro inp card rest h
    rcases h with h | h <;>
      · conv_lhs => rw [paymentPhase.eq_def]
        simp only []
        rw [if_pos (by rw [h]; decide), if_neg (by rw [h]; decide)]

/-- C10 witness: a trimmed, case-folded cash answer is accepted and
stored as the literal cash. -/
theorem c10_witness :
    paymentPhase [str " CASH "] = some (str "cash", []) :=
  c10_payment_step.2.1 (str " CASH ") [] (by decide)

/-! Claim C9: cancel_order. -/

/-- C9: a missing order id returns Order not found without a write; an
existing order whose status lowercases to on delivery is rejected
without a write; any other existing order has exactly the rows with
its id rewritten to status Cancelled and every other row untouched. -/
theorem c9_cancel_order (db : List OrderRec) (oid : Nat) :
    (db.find? (fun o => o.id == oid) = none → cancel_order db oid = (.notFound, db)) ∧
    (∀ o, db.find? (fun o => o.id == oid) = some o →
        lowerL o.status = str "on delivery" →
        cancel_order db oid = (.onDelivery, db)) ∧
    (∀ o, db.find? (fun o => o.id == oid) = some o →
        lowerL o.status ≠ str "on delivery" →
        (cancel_order db oid).1 = .cancelled ∧
          List.Forall₂
            (fun oOld oNew =>
              (oOld.id = oid → oNew = { oOld with status := str "Cancelled" }) ∧
              (oOld.id ≠ oid → oNew = oOld))
            db (cancel_order db oid).2) := by
  refine ⟨?_, ?_, ?_⟩
  · intro h
    unfold cancel_order
    rw [h]
  · intro o hfind hlow
    unfold cancel_order
    rw [hfind]
    dsimp only
    rw [if_pos hlow]
  · intro o hfind hlow
    unfold cancel_order
    rw [hfind]
    dsimp only
    rw [if_neg hlow]
    refine ⟨rfl, ?_⟩
    clear hfind
    induction db with
    | nil => exact List.Forall₂.nil
    | cons x xs ih =>
      refine List.Forall₂.cons ?_ ih
      by_cases hid : x.id = oid
      · constructor
        · intro _
          simp [hid]
        · intro h
          exact absurd hid h
      · constructor
        · intro h
          exact absurd h hid
        · intro _
          simp [hid]

/-- C9 witness: the order with id 2 is On Delivery, so cancelling it
is rejected and the table is unchanged. -/
theorem c9_witness :
    cancel_order DB0 2 = (CancelMsg.onDelivery, DB0) :=
  (c9_cancel_order DB0 2).2.1 { id := 2, status := str "On Delivery" }
    (by decide) (by decide)

/-! Claim C5: search_product. -/

/-- The statement-by-statement fallback loop equals the first-match
description: first product whose normalized name contains the
normalized query and whose stock is positive. -/
theorem fallbackScan_eq_find? :
    ∀ (normQ : Str) (catalog : List ProductR),
      fallbackScan normQ catalog =
        match catalog.find?
            (fun p => containsSub normQ (normalize_text p.name) && decide (0 < p.quantity)) with
        | some p => .found p
        | none => .notFound
  | _, [] => rfl
  | normQ, p :: rest => by
    rw [fallbackScan]
    by_cases hc : containsSub normQ (normalize_text p.name) = true
    · by_cases hq : 0 < p.quantity
      · rw [if_pos hc, if_pos hq, List.find?_cons_of_pos _ (by simp [hc, hq])]
      · rw [if_pos hc, if_neg hq, List.find?_cons_of_neg _ (by simp [hc, hq])]
        exact fallbackScan_eq_find? normQ rest
    · rw [if_neg hc, List.find?_cons_of_neg _ (by simp [hc])]
      exact fallbackScan_eq_find? normQ rest

/-- C5: if the case-insensitive substring lookup hits, the result is
SoldOut exactly on zero stock and the product otherwise; if it misses,
the result is the first catalog product (storage order) whose
normalized name contains the normalized query with positive stock, and
NotFound when none exists. -/
theorem c5_search_product (catalog : List ProductR) (q : Str) :
    (∀ p, likeFind catalog q = some p →
        search_product catalog q = if p.quantity = 0 then .soldOut else .found p) ∧
    (likeFind catalog q = none →
        search_product catalog q =
          match catalog.find?
              (fun p =>
                containsSub (normalize_text q) (normalize_text p.name) &&
                  decide (0 < p.quantity)) with
          | some p => .found p
          | none => .notFound) := by
  constructor
  · intro p hp
    unfold search_product
    rw [hp]
  · intro hnone
    unfold search_product
    rw [hnone]
    exact fallbackScan_eq_find? (normalize_text q) catalog

/-- C5 witness: the LIKE lookup misses the query Hooodie, and the
normalized fallback resolves it to the in-stock Black Hoodie. -/
theorem c5_witness :
    search_product [P0] (str "Hooodie") = SearchRes.found P0 := by
  have h := (c5_search_product [P0] (str "Hooodie")).2 (by decide)
  rw [h]
  rfl

/-! Claim C4: stable minimum selection in the attribute matcher. -/

theorem length_insertByKey (key : α → Nat) (x : α) :
    ∀ l : List α, (insertByKey key x l).length = l.length + 1
  | [] => rfl
  | y :: ys => by
    rw [insertByKey]
    split
    · rfl
    · simp [length_insertByKey key x ys]

theorem length_sortByKey (key : α → Nat) :
    ∀ l : List α, (sortByKey key l).length = l.length
  | [] => rfl
  | x :: xs => by
    rw [sortByKey, length_insertByKey, length_sortByKey key xs]
    rfl

theorem mem_insertByKey (key : α → Nat) (x a : α) :
    ∀ l : List α, a ∈ insertByKey key x l ↔ a = x ∨ a ∈ l
  | [] => by simp [insertByKey]
  | y :: ys => by
    rw [insertByKey]
    split
    · simp [List.mem_cons]
    · simp only [List.mem_cons, mem_insertByKey key x a ys]
      tauto

theorem mem_sortByKey (key : α → Nat) (a : α) :
    ∀ l : List α, a ∈ sortByKey key l ↔ a ∈ l
  | [] => Iff.rfl
  | x :: xs => by
    rw [sortByKey, mem_insertByKey, mem_sortByKey key a xs]
    simp [List.mem_cons]

theorem find?_congr_on {p q : α → Bool} :
    ∀ l : List α, (∀ a ∈ l, p a = q a) → l.find? p = l.find? q
  | [], _ => rfl
  | x :: xs, h => by
    have hx : p x = q x := h x (List.mem_cons_self _ _)
    by_cases hpx : p x = true
    · rw [List.find?_cons_of_pos _ hpx, List.find?_cons_of_pos _ (hx ▸ hpx)]
    · rw [List.find?_cons_of_neg _ hpx, List.find?_cons_of_neg _ (by rw [← hx]; exact hpx)]
      exact find?_congr_on xs fun a ha => h a (List.mem_cons_of_mem _ ha)

/-- The head of the stable sort by key is the first element of the
original list whose key is minimal. -/
theorem head_sortByKey (key : α → Nat) :
    ∀ l : List α,
      (sortByKey key l).head? = l.find? fun a => l.all fun b => decide (key a ≤ key b)
  | [] => rfl
  | x :: xs => by
    rw [sortByKey]
    cases hs : sortByKey key xs with
    | nil =>
      have hxs : xs = [] := by
        have hlen := length_sortByKey key xs
        rw [hs] at hlen
        exact List.length_eq_zero.mp hlen.symm
      subst hxs
      simp [insertByKey]
    | cons hh tt =>
      have ih := head_sortByKey key xs
      rw [hs] at ih
      have hmem : hh ∈ xs := by
        have hm : hh ∈ sortByKey key xs := by rw [hs]; exact List.mem_cons_self _ _
        exact (mem_sortByKey key hh xs).mp hm
      have ih2 : (xs.find? fun a => xs.all fun b => decide (key a ≤ key b)) = some hh := by
        rw [← ih]
        rfl
      have hpred :=
        @List.find?_some _ (fun a => xs.all fun b => decide (key a ≤ key b)) hh xs ih2
      have hmin : ∀ b ∈ xs, key hh ≤ key b := fun b hb =>
        of_decide_eq_true (List.all_eq_true.mp hpred b hb)
      rw [insertByKey]
      by_cases hxh : key x ≤ key hh
      · rw [if_pos hxh]
        have hpx : ((x :: xs).all fun b => decide (key x ≤ key b)) = true := by
          apply List.all_eq_true.mpr
          intro b hb
          rcases List.mem_cons.mp hb with rfl | hb2
          · exact decide_eq_true (le_refl _)
          · exact decide_eq_true (le_trans hxh (hmin b hb2))
        rw [@List.find?_cons_of_pos _ (fun a => (x :: xs).all fun b => decide (key a ≤ key b))
          x xs hpx]
        rfl
      · rw [if_neg hxh]
        have hhx : key hh < key x := Nat.lt_of_not_le hxh
        have hpxf : ¬ ((x :: xs).all fun b => decide (key x ≤ key b)) = true := by
          intro hcon
          exact hxh (of_decide_eq_true
            (List.all_eq_true.mp hcon hh (List.mem_cons_of_mem _ hmem)))
        rw [@List.find?_cons_of_neg _ (fun a => (x :: xs).all fun b => decide (key a ≤ key b))
          x xs hpxf]
        have hcongr :
            (xs.find? fun a => (x :: xs).all fun b => decide (key a ≤ key b)) =
              xs.find? fun a => xs.all fun b => decide (key a ≤ key b) := by
          apply find?_congr_on
          intro a ha
          by_cases hba : (xs.all fun b => decide (key a ≤ key b)) = true
          · rw [hba]
            apply List.all_eq_true.mpr
            intro b hb
            rcases List.mem_cons.mp hb with rfl | hb2
            · exact decide_eq_true
                (le_trans (of_decide_eq_true (List.all_eq_true.mp hba hh hmem))
                  (le_of_lt hhx))
            · exact List.all_eq_true.mp hba b hb2
          · have hpa : ¬ ((x :: xs).all fun b => decide (key a ≤ key b)) = true := by
              intro hcon
              exact hba (List.all_eq_true.mpr fun b hb =>
                List.all_eq_true.mp hcon b (List.mem_cons_of_mem _ hb))
            rw [eq_false_of_ne_true hpa, eq_false_of_ne_true hba]
        rw [hcongr, ih2]
        rfl

/-- C4: with the exact lookup empty, the product returned by the
attribute fallback is the first candidate, in storage order, whose
score is minimal among the candidates (the stable sort preserves ties
in storage order), and every score lies in the set 0, 1, 2. -/
theorem c4_stable_min (catalog : List ProductR) (cat col sz st : Str) (p : ProductR)
    (hexact : exactFind catalog cat col sz st = none)
    (hfind :
      ((fallbackCands catalog cat st).find? fun a =>
          (fallbackCands catalog cat st).all fun b =>
            decide (attrScore col sz a ≤ attrScore col sz b)) = some p) :
    search_product_by_attributes catalog cat col sz st = .found p ∧
      attrScore col sz p ≤ 2 := by
  constructor
  · unfold search_product_by_attributes
    rw [hexact]
    dsimp only
    rw [head_sortByKey, hfind]
  · unfold attrScore
    split <;> split <;> omega

/-- C4 witness: scores 1, 1, 2 against the query (Black, M); the
first score-1 candidate in storage order wins over the later score-1
and score-2 candidates. -/
theorem c4_witness :
    search_product_by_attributes CAT4 (str "Hoodies") (str "Black") (str "M")
      (str "Pullover") = SearchRes.found PA :=
  (c4_stable_min CAT4 (str "Hoodies") (str "Black") (str "M") (str "Pullover") PA
    (by decide) (by decide)).1

/-! Claim C7: the similarity ratio. -/

theorem foldl_pickBest_cases :
    ∀ (l : List (Nat × Nat × Nat)) (init : Nat × Nat × Nat),
      l.foldl pickBest init = init ∨ l.foldl pickBest init ∈ l
  | [], _ => Or.inl rfl
  | c :: l, init => by
    rw [List.foldl_cons]
    rcases foldl_pickBest_cases l (pickBest init c) with h | h
    · rw [h]
      unfold pickBest
      split
      · exact Or.inr (List.mem_cons_self _ _)
      · exact Or.inl rfl
    · exact Or.inr (List.mem_cons_of_mem _ h)

theorem foldl_pickBest_stay :
    ∀ (l : List (Nat × Nat × Nat)) (best : Nat × Nat × Nat),
      (∀ c ∈ l, c.2.2 ≤ best.2.2) → l.foldl pickBest best = best
  | [], _, _ => rfl
  | c :: l, best, h => by
    rw [List.foldl_cons]
    have hc : pickBest best c = best := by
      unfold pickBest
      rw [if_neg (by have := h c (List.mem_cons_self _ _); omega)]
    rw [hc]
    exact foldl_pickBest_stay l best fun d hd => h d (List.mem_cons_of_mem _ hd)

theorem runLen_le_left : ∀ u v : List Char, runLen u v ≤ u.length
  | [], _ => Nat.le_refl _
  | _ :: _, [] => Nat.zero_le _
  | a :: u, b :: v => by
    rw [runLen]
    split
    · have := runLen_le_left u v
      simpa using this
    · exact Nat.zero_le _

theorem runLen_le_right : ∀ u v : List Char, runLen u v ≤ v.length
  | [], [] => Nat.le_refl _
  | [], _ :: _ => Nat.zero_le _
  | _ :: _, [] => Nat.zero_le _
  | a :: u, b :: v => by
    rw [runLen]
    split
    · have := runLen_le_right u v
      simpa using this
    · exact Nat.zero_le _

theorem runLen_self : ∀ a : List Char, runLen a a = a.length
  | [] => rfl
  | c :: a => by rw [runLen, if_pos rfl, runLen_self a, List.length_cons]

theorem fimCands_bounds (a b : List Char) :
    ∀ c ∈ fimCands a b, c.1 + c.2.2 ≤ a.length ∧ c.2.1 + c.2.2 ≤ b.length := by
  intro c hc
  unfold fimCands at hc
  rw [List.mem_flatMap] at hc
  obtain ⟨i, hi, hc2⟩ := hc
  rw [List.mem_map] at hc2
  obtain ⟨j, hj, heq⟩ := hc2
  rw [List.mem_range] at hi hj
  subst heq
  have h1 := runLen_le_left (a.drop i) (b.drop j)
  have h2 := runLen_le_right (a.drop i) (b.drop j)
  rw [List.length_drop] at h1 h2
  exact ⟨by simp only []; omega, by simp only []; omega⟩

theorem fim_bounds (a b : List Char) :
    (fim a b).1 + (fim a b).2.2 ≤ a.length ∧ (fim a b).2.1 + (fim a b).2.2 ≤ b.length := by
  have hcase : fim a b = (0, 0, 0) ∨ fim a b ∈ fimCands a b := by
    unfold fim
    exact foldl_pickBest_cases (fimCands a b) (0, 0, 0)
  rcases hcase with h | h
  · rw [h]
    exact ⟨Nat.zero_le _, Nat.zero_le _⟩
  · exact fimCands_bounds a b _ h

theorem matchingTotalF_le_right :
    ∀ (fuel : Nat) (a b : List Char), matchingTotalF fuel a b ≤ b.length
  | 0, _, _ => Nat.zero_le _
  | fuel + 1, a, b => by
    rw [matchingTotalF]
    by_cases hk : (fim a b).2.2 = 0
    · rw [if_pos hk]
      exact Nat.zero_le _
    · rw [if_neg hk]
      have hb := (fim_bounds a b).2
      have h1 := matchingTotalF_le_right fuel (a.take (fim a b).1) (b.take (fim a b).2.1)
      have h2 := matchingTotalF_le_right fuel (a.drop ((fim a b).1 + (fim a b).2.2))
        (b.drop ((fim a b).2.1 + (fim a b).2.2))
      rw [List.length_take] at h1
      rw [List.length_drop] at h2
      omega

/-- M never exceeds the length of the second string: the matching
blocks are disjoint segments of it. -/
theorem matchingTotal_le_right (a b : List Char) : matchingTotal a b ≤ b.length :=
  matchingTotalF_le_right _ a b

theorem matchingTotalF_nil_nil : ∀ fuel : Nat, matchingTotalF fuel [] [] = 0
  | 0 => rfl
  | _ + 1 => rfl

theorem fim_self (a : List Char) (ha : a ≠ []) : fim a a = (0, 0, a.length) := by
  have hk := fimCands_bounds a a
  obtain ⟨c, a', rfl⟩ := List.exists_cons_of_ne_nil ha
  have hsplit : ∃ rest, fimCands (c :: a') (c :: a') = (0, 0, (c :: a').length) :: rest := by
    unfold fimCands
    rw [List.length_cons, List.range_succ_eq_map]
    rw [List.flatMap_cons, List.map_cons]
    rw [List.drop_zero, runLen_self, List.length_cons]
    exact ⟨_, rfl⟩
  obtain ⟨rest, hre⟩ := hsplit
  unfold fim
  rw [hre, List.foldl_cons]
  have h0 : pickBest (0, 0, 0) (0, 0, (c :: a').length) = (0, 0, (c :: a').length) := by
    unfold pickBest
    rw [if_pos (by simp)]
  rw [h0]
  apply foldl_pickBest_stay
  intro d hd
  have hdc : d ∈ fimCands (c :: a') (c :: a') := by
    rw [hre]
    exact List.mem_cons_of_mem _ hd
  have := (hk d hdc).2
  simp only []
  omega

theorem matchingTotal_self (a : List Char) : matchingTotal a a = a.length := by
  cases ha : a with
  | nil => rfl
  | cons c a' =>
    unfold matchingTotal
    obtain ⟨m, hm⟩ : ∃ m, (c :: a').length + (c :: a').length = m + 1 :=
      ⟨(c :: a').length + a'.length, by simp [List.length_cons]; omega⟩
    rw [hm, matchingTotalF]
    rw [fim_self (c :: a') (by simp)]
    dsimp only
    rw [if_neg (by simp)]
    rw [List.take_zero, matchingTotalF_nil_nil]
    have hd : (c :: a').drop (0 + (c :: a').length) = [] := by
      rw [Nat.zero_add, List.drop_length]
    rw [hd, matchingTotalF_nil_nil]
    omega

/-- C7 counterexample: the ratio is not symmetric — for tide against
diet it is 1/4 one way and 1/2 the other (matching Python difflib,
whose greedy tie-break depends on the argument order). -/
theorem c7_counterexample :
    seqRatio (str "tide") (str "diet") = (1 : Rat) / 4 ∧
      seqRatio (str "diet") (str "tide") = (1 : Rat) / 2 ∧
      seqRatio (str "tide") (str "diet") ≠ seqRatio (str "diet") (str "tide") := by
  have h1 : matchingTotal (str "tide") (str "diet") = 1 := by decide
  have h2 : matchingTotal (str "diet") (str "tide") = 2 := by decide
  have hl1 : (str "tide").length = 4 := by decide
  have hl2 : (str "diet").length = 4 := by decide
  refine ⟨?_, ?_, ?_⟩
  · unfold seqRatio
    rw [h1, hl1, hl2]
    norm_num
  · unfold seqRatio
    rw [h2, hl1, hl2]
    norm_num
  · unfold seqRatio
    rw [h1, h2, hl1, hl2]
    norm_num

/-- C7 amended: the ratio of two identical strings is 1 (also for the
empty string, where difflib defines the ratio of two empty sequences
as 1.0); symmetry, however, does not hold in general. -/
theorem c7_ratio_identity (a : List Char) : seqRatio a a = 1 := by
  unfold seqRatio
  by_cases h : a.length + a.length = 0
  · rw [if_pos h]
  · rw [if_neg h]
    rw [matchingTotal_self]
    have hl : a.length ≠ 0 := by omega
    have hden : ((a.length + a.length : Nat) : Rat) ≠ 0 := by
      exact_mod_cast h
    rw [div_eq_one_iff_eq hden]
    push_cast
    ring

/-! Claim C3: precedence of the cancellation rule. -/

theorem beginsWith_iff : ∀ t l : Str, beginsWith t l = true ↔ ∃ r, l = t ++ r
  | [], l => by
    simp [beginsWith]
  | a :: t, [] => by
    simp [beginsWith]
  | a :: t, b :: l => by
    rw [beginsWith]
    simp only [Bool.and_eq_true, decide_eq_true_eq]
    constructor
    · rintro ⟨rfl, h2⟩
      obtain ⟨r, rfl⟩ := (beginsWith_iff t l).mp h2
      exact ⟨r, rfl⟩
    · rintro ⟨r, hr⟩
      injection hr with h1 h2
      exact ⟨h1.symm, (beginsWith_iff t l).mpr ⟨r, h2⟩⟩

theorem containsSub_iff : ∀ t l : Str, containsSub t l = true ↔ ∃ u v, l = u ++ t ++ v
  | t, [] => by
    rw [containsSub, beginsWith_iff]
    constructor
    · rintro ⟨r, hr⟩
      exact ⟨[], r, hr⟩
    · rintro ⟨u, v, huv⟩
      have hu : u = [] ∧ t ++ v = [] := by
        have h := huv.symm
        rw [List.append_assoc] at h
        exact List.append_eq_nil.mp h
      exact ⟨v, by rw [← hu.2]⟩
  | t, b :: l => by
    rw [containsSub]
    simp only [Bool.or_eq_true]
    constructor
    · intro h
      rcases h with h | h
      · obtain ⟨r, hr⟩ := (beginsWith_iff t (b :: l)).mp h
        exact ⟨[], r, by simpa using hr⟩
      · obtain ⟨u, v, huv⟩ := (containsSub_iff t l).mp h
        exact ⟨b :: u, v, by rw [huv]; rfl⟩
    · rintro ⟨u, v, huv⟩
      cases u with
      | nil =>
        left
        exact (beginsWith_iff t (b :: l)).mpr ⟨v, by simpa using huv⟩
      | cons x u2 =>
        right
        injection huv with h1 h2
        exact (containsSub_iff t l).mpr ⟨u2, v, h2⟩

theorem collapse_cons_length (a : Char) (l : List Char) :
    (collapse l).length ≤ (collapse (a :: l)).length := by
  match l with
  | [] => exact Nat.zero_le _
  | [b] => exact Nat.le_succ _
  | b :: c :: r =>
    rw [collapse]
    split
    · exact Nat.le_refl _
    · rw [List.length_cons]
      exact Nat.le_succ _

theorem collapse_ge_of_begins :
    ∀ t v : List Char, noAdjEq t = true → t.length - 1 ≤ (collapse (t ++ v)).length
  | [], _, _ => by simp
  | [a], _, _ => by simp
  | a :: b :: t2, v, hch => by
    rw [noAdjEq] at hch
    simp only [Bool.and_eq_true, decide_eq_true_eq] at hch
    obtain ⟨hab, hch2⟩ := hch
    have ih := collapse_ge_of_begins (b :: t2) v hch2
    cases htv : t2 ++ v with
    | nil =>
      obtain ⟨ht2, hv⟩ := List.append_eq_nil.mp htv
      subst ht2
      subst hv
      simp [collapse]
    | cons c r =>
      have hstep : collapse ((a :: b :: t2) ++ v) = a :: collapse ((b :: t2) ++ v) := by
        show collapse (a :: b :: (t2 ++ v)) = a :: collapse (b :: (t2 ++ v))
        rw [htv, collapse, if_neg (fun h => hab h.1)]
      rw [hstep, List.length_cons]
      simp only [List.length_cons] at ih ⊢
      omega

theorem collapse_infix_length :
    ∀ (u t v : List Char), noAdjEq t = true → t.length - 1 ≤ (collapse (u ++ t ++ v)).length
  | [], t, v, h => by
    rw [List.nil_append]
    exact collapse_ge_of_begins t v h
  | a :: u2, t, v, h =>
    le_trans (collapse_infix_length u2 t v h) (collapse_cons_length a (u2 ++ t ++ v))

/-- C3 counterexample: an utterance containing the substring cancel
order and the word buy that also contains suggest is classified as
place_order: the suggest rule precedes the cancellation rule. -/
theorem c3_counterexample :
    containsSub (str "cancel order") (lowerL (str "Suggest: cancel order or buy")) = true ∧
      hasWord (str "buy") (lowerL (str "Suggest: cancel order or buy")) = true ∧
      determine_intent (str "Suggest: cancel order or buy") = Intent.place_order ∧
      Intent.place_order ≠ Intent.cancel_order := by
  refine ⟨by decide, by decide, by decide, by decide⟩

/-- C3 amended: every utterance whose lowercased text contains the
substring cancel order and the word buy, and does not contain the
substring suggest, classifies as cancel_order.  (The normalized-text
similarity rule sitting between the suggest rule and the cancellation
rule can never fire on such utterances: the matched total is at most
5 while the combined length is at least 15, so the ratio is at most
2/3.) -/
theorem c3_cancel_precedence (s : Str)
    (hcancel : containsSub (str "cancel order") (lowerL s) = true)
    (hbuy : hasWord (str "buy") (lowerL s) = true)
    (hsuggest : containsSub (str "suggest") (lowerL s) = false) :
    determine_intent s = Intent.cancel_order := by
  obtain ⟨u, v, huv⟩ := (containsSub_iff _ _).mp hcancel
  have hfilter : (lowerL s).filter Char.isAlphanum =
      u.filter Char.isAlphanum ++ str "cancelorder" ++ v.filter Char.isAlphanum := by
    rw [huv, List.filter_append, List.filter_append]
    have hmid : (str "cancel order").filter Char.isAlphanum = str "cancelorder" := by decide
    rw [hmid]
  have hlen : 10 ≤ (normalize_text s).length := by
    have hinf := collapse_infix_length (u.filter Char.isAlphanum) (str "cancelorder")
      (v.filter Char.isAlphanum) (by decide)
    have hlen11 : (str "cancelorder").length = 11 := by decide
    rw [hlen11] at hinf
    unfold normalize_text
    rw [hfilter]
    exact hinf
  have h5 : (normalize_text (str "order")).length = 5 := by decide
  have hM : matchingTotal (normalize_text s) (normalize_text (str "order")) ≤ 5 := by
    have h := matchingTotal_le_right (normalize_text s) (normalize_text (str "order"))
    omega
  have hratio : seqRatio (normalize_text s) (normalize_text (str "order")) < 4 / 5 := by
    unfold seqRatio
    rw [if_neg (by omega)]
    rw [h5]
    have hpos : (0 : Rat) < ((normalize_text s).length + 5 : Nat) := by
      have : (0 : Nat) < (normalize_text s).length + 5 := by omega
      exact_mod_cast this
    rw [div_lt_div_iff₀ hpos (by norm_num)]
    have hMr : ((2 * matchingTotal (normalize_text s) (normalize_text (str "order")) : Nat) : Rat)
        ≤ 10 := by
      have : (2 * matchingTotal (normalize_text s) (normalize_text (str "order")) : Nat) ≤ 10 := by
        omega
      exact_mod_cast this
    have hLr : (15 : Rat) ≤ (((normalize_text s).length + 5 : Nat) : Rat) := by
      have : (15 : Nat) ≤ (normalize_text s).length + 5 := by omega
      exact_mod_cast this
    nlinarith
  unfold determine_intent
  simp only [hsuggest, hcancel, Bool.false_eq_true, if_false, Bool.true_or, if_true]
  rw [if_neg (not_le.mpr hratio)]

/-- C3 witness: a suggest-free utterance with both cancel order and
buy classifies as cancel_order. -/
theorem c3_witness :
    determine_intent (str "please cancel order i buy") = Intent.cancel_order :=
  c3_cancel_precedence (str "please cancel order i buy") (by decide) (by decide) (by decide)

end Chatbot
